import Mathlib

/-!
Verification of the Combination Finder of `stampcombos` (`src/app.py`).

The core function is `calculate_stamp_combos(price_dollars, stamps,
max_stamps, max_price_dollars)`:

  price_cents = int(price_dollars * 100)
  max_price_cents = int(max_price_dollars * 100)
  combos = itertools.chain(
      *(itertools.combinations_with_replacement(stamps, n)
        for n in range(1, max_stamps + 1)))
  return [combo for combo in combos
          if (sum(combo) >= price_cents and sum(combo) <= max_price_cents)]

Python integers are embedded as `ℤ`; the decimal dollar inputs are embedded
as `ℚ`, with Python's `int(·)` conversion modelled as truncation toward zero.
-/

namespace StampCombos

/-- One level of the combinations-with-replacement recursion: for each suffix
`x :: xs` of the pool, extend every tuple produced by `f` on that suffix with
`x` in front, then continue with the next suffix. -/
def cwrAux (f : List α → List (List α)) : List α → List (List α)
  | [] => []
  | x :: xs => (f (x :: xs)).map (fun c => x :: c) ++ cwrAux f xs

/-- Size-indexed core of `combinationsWithReplacement` (recursion on the tuple
size so that it is structural and evaluates by `decide`/`rfl`). -/
def combosWR : Nat → List α → List (List α)
  | 0, _ => [[]]
  | n + 1, l => cwrAux (combosWR n) l

/-- `itertools.combinations_with_replacement(pool, n)`: all length-`n` tuples of
elements of `pool` taken at non-decreasing index positions, emitted in
lexicographic order of the index tuples (i.e. size-class internal order is
lexicographic by input position). -/
def combinationsWithReplacement (pool : List α) (n : Nat) : List (List α) :=
  combosWR n pool

/-- Lines 24–34 of `src/app.py`, after the dollar inputs have been converted
to integer cents: chain the combinations-with-replacement of sizes
`1 .. max_stamps` (Python's `range(1, max_stamps + 1)`) and keep the ones whose
sum lies in `[price_cents, max_price_cents]`. -/
def calcCombosCents (stamps : List ℤ) (priceCents maxPriceCents : ℤ)
    (maxStamps : ℕ) : List (List ℤ) :=
  ((List.range' 1 maxStamps).flatMap
      (fun n => combinationsWithReplacement stamps n)).filter
    (fun combo => decide (priceCents ≤ combo.sum) &&
      decide (combo.sum ≤ maxPriceCents))

/-- Python's `int(·)` applied to a number: truncation toward zero. Note the
idealization: the source applies `int` to an IEEE-754 double, whereas here the
argument is an exact rational, so binary representation error (e.g.
`0.29 * 100 = 28.999999999999996`, making `int(0.29 * 100) = 28` in Python
while the exact value 29 truncates to 29) is not modelled. -/
def pyInt (q : ℚ) : ℤ := if 0 ≤ q then ⌊q⌋ else ⌈q⌉

/-- The whole of `calculate_stamp_combos` from `src/app.py` (lines 15–34):
converts the dollar amounts to cents with `int(value * 100)` and filters the
chained combinations-with-replacement. The dollar inputs and the products
`value * 100` are idealized as exact rationals in place of IEEE-754 doubles
(see `pyInt`), so this wrapper is used only for properties that are
insensitive to the exact cents values produced by the conversion; cents-level
properties are stated against `calcCombosCents` directly. -/
def calculate_stamp_combos (price_dollars : ℚ) (stamps : List ℤ)
    (max_stamps : ℕ) (max_price_dollars : ℚ) : List (List ℤ) :=
  calcCombosCents stamps (pyInt (price_dollars * 100))
    (pyInt (max_price_dollars * 100)) max_stamps

/-- Reference definition written from the spec's algorithm (§4.1): for each
size `n` from 1 to `max_count`, generate all combinations-with-replacement of
size `n` from `denominations` in input order, keep those whose sum lies in
`[target, maximum]`, and concatenate the per-size sequences in increasing
order of `n` with no further sorting. -/
def specCombos (denominations : List ℤ) (target maximum : ℤ)
    (max_count : ℕ) : List (List ℤ) :=
  (List.range' 1 max_count).flatMap
    (fun n =>
      (combinationsWithReplacement denominations n).filter
        (fun c => decide (target ≤ c.sum) && decide (c.sum ≤ maximum)))

/-- Members of `combinationsWithReplacement l n` have length `n` and draw all
their elements from `l`. -/
theorem mem_combosWR (n : ℕ) :
    ∀ (l : List α), ∀ c ∈ combosWR n l, c.length = n ∧ ∀ x ∈ c, x ∈ l := by
  induction n with
  | zero =>
      intro l c hc
      simp only [combosWR, List.mem_singleton] at hc
      subst hc
      simp
  | succ n ih =>
      intro l
      induction l with
      | nil =>
          intro c hc
          simp [combosWR, cwrAux] at hc
      | cons x xs ihl =>
          intro c hc
          simp only [combosWR, cwrAux, List.mem_append, List.mem_map] at hc
          rcases hc with ⟨d, hd, rfl⟩ | h
          · obtain ⟨hlen, helt⟩ := ih (x :: xs) d hd
            refine ⟨by simp [hlen], ?_⟩
            intro y hy
            rcases List.mem_cons.mp hy with rfl | hy
            · exact List.mem_cons_self _ _
            · exact helt y hy
          · obtain ⟨hlen, helt⟩ := ihl c (by simpa [combosWR] using h)
            exact ⟨hlen, fun y hy => List.mem_cons_of_mem _ (helt y hy)⟩

theorem mem_combinationsWithReplacement (l : List α) (n : ℕ) :
    ∀ c ∈ combinationsWithReplacement l n, c.length = n ∧ ∀ x ∈ c, x ∈ l :=
  mem_combosWR n l

/-- Membership in the Finder's output: the combination appears in some size
class `n` with `1 ≤ n ≤ maxStamps` and its sum lies in the window. -/
theorem mem_calcCombosCents {stamps : List ℤ} {t m : ℤ} {k : ℕ}
    {c : List ℤ} :
    c ∈ calcCombosCents stamps t m k ↔
      (∃ n, 1 ≤ n ∧ n ≤ k ∧ c ∈ combinationsWithReplacement stamps n) ∧
        t ≤ c.sum ∧ c.sum ≤ m := by
  simp only [calcCombosCents, List.mem_filter, List.mem_flatMap,
    List.mem_range'_1, Bool.and_eq_true, decide_eq_true_eq]
  constructor
  · rintro ⟨⟨n, ⟨h1, h2⟩, hc⟩, hs1, hs2⟩
    exact ⟨⟨n, h1, by omega, hc⟩, hs1, hs2⟩
  · rintro ⟨⟨n, h1, h2, hc⟩, hs1, hs2⟩
    exact ⟨⟨n, ⟨h1, by omega⟩, hc⟩, hs1, hs2⟩

/-- Splitting the size range: the Finder's output for `k + d` size classes is
its output for `k` classes followed by the filtered classes `k+1 .. k+d`. -/
theorem calcCombosCents_add (stamps : List ℤ) (t m : ℤ) (k d : ℕ) :
    calcCombosCents stamps t m (k + d) =
      calcCombosCents stamps t m k ++
        ((List.range' (1 + k) d).flatMap
            (fun n => combinationsWithReplacement stamps n)).filter
          (fun combo => decide (t ≤ combo.sum) &&
            decide (combo.sum ≤ m)) := by
  unfold calcCombosCents
  rw [Nat.add_comm k d, ← List.range'_append_1 1 k d, List.flatMap_append,
    List.filter_append]

/-- The Finder's output for `k` size classes is a prefix of its output for
`k' ≥ k` size classes. -/
theorem calcCombosCents_prefixOf (stamps : List ℤ) (t m : ℤ) {k k' : ℕ}
    (h : k ≤ k') :
    calcCombosCents stamps t m k <+: calcCombosCents stamps t m k' := by
  have hk : k' = k + (k' - k) := by omega
  rw [hk, calcCombosCents_add]
  exact List.prefix_append _ _

/-- C1: for every input satisfying the preconditions, every combination in the
Finder's output has sum in `[target, maximum]`, length between 1 and
`max_count`, and all its elements drawn from the denominations list. -/
theorem result_invariant (stamps : List ℤ) (target maximum : ℤ)
    (max_count : ℕ) (h0 : 0 ≤ target) (h1 : target ≤ maximum)
    (h2 : 1 ≤ max_count) (h3 : ∀ d ∈ stamps, 0 < d) :
    ∀ c ∈ calcCombosCents stamps target maximum max_count,
      (target ≤ c.sum ∧ c.sum ≤ maximum) ∧
        (1 ≤ c.length ∧ c.length ≤ max_count) ∧ ∀ x ∈ c, x ∈ stamps := by
  intro c hc
  rw [mem_calcCombosCents] at hc
  obtain ⟨⟨n, hn1, hn2, hcn⟩, hs1, hs2⟩ := hc
  obtain ⟨hlen, helt⟩ := mem_combinationsWithReplacement stamps n c hcn
  exact ⟨⟨hs1, hs2⟩, ⟨by omega, by omega⟩, helt⟩

theorem result_invariant_witness :
    ((100 : ℤ) ≤ ([50, 50] : List ℤ).sum ∧ ([50, 50] : List ℤ).sum ≤ 100) ∧
      (1 ≤ ([50, 50] : List ℤ).length ∧ ([50, 50] : List ℤ).length ≤ 2) ∧
      ∀ x ∈ ([50, 50] : List ℤ), x ∈ ([50] : List ℤ) :=
  result_invariant [50] 100 100 2 (by decide) (by decide) (by decide)
    (by decide) [50, 50] (by decide)

/-- C2: the Finder's output equals the spec's reference enumeration: for each
size `n = 1 .. max_count` in increasing order, the combinations-with-replacement
of size `n` in input order, filtered to sums in `[target, maximum]`, with the
survivors kept in exactly that enumeration order and no further sorting. -/
theorem finder_eq_specCombos (stamps : List ℤ) (target maximum : ℤ)
    (max_count : ℕ) (h0 : 0 ≤ target) (h1 : target ≤ maximum)
    (h2 : 1 ≤ max_count) (h3 : ∀ d ∈ stamps, 0 < d) :
    calcCombosCents stamps target maximum max_count =
      specCombos stamps target maximum max_count := by
  unfold calcCombosCents specCombos
  rw [List.filter_flatMap]

theorem finder_eq_specCombos_witness :
    calcCombosCents [50] 100 100 2 = specCombos [50] 100 100 2 :=
  finder_eq_specCombos [50] 100 100 2 (by decide) (by decide) (by decide)
    (by decide)

/-- C4: widening `maximum` yields a superset, narrowing it a subset: with all
other arguments fixed and `maximum ≤ maximum'`, the result at `maximum` is a
sub-multiset (subset as multisets, ignoring order) of the result at
`maximum'`. -/
theorem monotone_in_maximum (stamps : List ℤ) (target maximum maximum' : ℤ)
    (max_count : ℕ) (h : maximum ≤ maximum') :
    (calcCombosCents stamps target maximum max_count :
        Multiset (List ℤ)) ≤
      (calcCombosCents stamps target maximum' max_count :
        Multiset (List ℤ)) := by
  rw [Multiset.coe_le]
  apply List.Sublist.subperm
  unfold calcCombosCents
  apply List.monotone_filter_right
  intro c hc
  simp only [Bool.and_eq_true, decide_eq_true_eq] at hc ⊢
  exact ⟨hc.1, le_trans hc.2 h⟩

theorem monotone_in_maximum_witness :
    (calcCombosCents [50] 100 100 2 : Multiset (List ℤ)) ≤
      (calcCombosCents [50] 100 150 2 : Multiset (List ℤ)) :=
  monotone_in_maximum [50] 100 100 150 2 (by decide)

/-- C5: increasing `max_count` yields a superset: with all other arguments
fixed and `max_count ≤ max_count'`, every combination returned at `max_count`
is also returned at `max_count'`. -/
theorem monotone_in_max_count (stamps : List ℤ) (target maximum : ℤ)
    (max_count max_count' : ℕ) (h : max_count ≤ max_count') :
    ∀ c ∈ calcCombosCents stamps target maximum max_count,
      c ∈ calcCombosCents stamps target maximum max_count' := by
  intro c hc
  exact (calcCombosCents_prefixOf stamps target maximum h).sublist.subset hc

theorem monotone_in_max_count_witness :
    ([50, 50] : List ℤ) ∈ calcCombosCents [50] 100 100 3 :=
  monotone_in_max_count [50] 100 100 2 3 (by decide) [50, 50] (by decide)

/-- C6: when `maximum < target` the filter window is empty, so the Finder
returns the empty sequence (and, being a total function, raises no error). -/
theorem empty_when_maximum_lt_target (stamps : List ℤ) (target maximum : ℤ)
    (max_count : ℕ) (h : maximum < target) :
    calcCombosCents stamps target maximum max_count = [] := by
  unfold calcCombosCents
  rw [List.filter_eq_nil_iff]
  intro c hc
  simp only [Bool.and_eq_true, decide_eq_true_eq, not_and]
  intro hs1 hs2
  omega

theorem empty_when_maximum_lt_target_witness :
    calcCombosCents [50] 100 99 2 = [] :=
  empty_when_maximum_lt_target [50] 100 99 2 (by decide)

/-- C7: determinism — two invocations with identical arguments produce
identical, order-identical outputs; the embedding is a pure function of its
arguments with no state. -/
theorem deterministic (p₁ p₂ : ℚ) (s₁ s₂ : List ℤ) (k₁ k₂ : ℕ) (m₁ m₂ : ℚ)
    (hp : p₁ = p₂) (hs : s₁ = s₂) (hk : k₁ = k₂) (hm : m₁ = m₂) :
    calculate_stamp_combos p₁ s₁ k₁ m₁ = calculate_stamp_combos p₂ s₂ k₂ m₂ :=
  by rw [hp, hs, hk, hm]

theorem deterministic_witness :
    calculate_stamp_combos 1 [50] 2 1 = calculate_stamp_combos 1 [50] 2 1 :=
  deterministic 1 1 [50] [50] 2 2 1 1 rfl rfl rfl rfl

/-- C8: Scenario B — denominations `[50]`, target 100 cents, maximum 100
cents, `max_count = 2` yields exactly `[(50, 50)]`, of sum 100 and size 2. -/
theorem scenario_b :
    calcCombosCents [50] 100 100 2 = [[50, 50]] ∧
      ([50, 50] : List ℤ).sum = 100 ∧ ([50, 50] : List ℤ).length = 2 := by
  refine ⟨by decide, by decide, by decide⟩

/-- C9: a valid input with two equal denomination entries whose output
contains two positionally distinct, value-identical combinations — the Finder
performs no deduplication. -/
theorem duplicates_not_deduplicated :
    ∃ (stamps : List ℤ) (t m : ℤ) (k : ℕ),
      (0 ≤ t ∧ t ≤ m ∧ 1 ≤ k ∧ ∀ d ∈ stamps, 0 < d) ∧
        (∃ i j : Fin stamps.length, (i : ℕ) < (j : ℕ) ∧
          stamps.get i = stamps.get j) ∧
        ∃ i j : Fin (calcCombosCents stamps t m k).length,
          (i : ℕ) < (j : ℕ) ∧
            (calcCombosCents stamps t m k).get i =
              (calcCombosCents stamps t m k).get j :=
  ⟨[20, 20], 20, 20, 1, by decide⟩

/-- C10: the Finder's output at `max_count` is exactly a prefix of its output
at any `max_count' ≥ max_count`: size classes are emitted in increasing order
and filtering preserves the order. -/
theorem max_count_prefix_property (stamps : List ℤ) (target maximum : ℤ)
    (max_count max_count' : ℕ) (h : max_count ≤ max_count') :
    calcCombosCents stamps target maximum max_count <+:
      calcCombosCents stamps target maximum max_count' :=
  calcCombosCents_prefixOf stamps target maximum h

theorem max_count_prefix_property_witness :
    calcCombosCents [50] 100 100 2 <+: calcCombosCents [50] 100 100 3 :=
  max_count_prefix_property [50] 100 100 2 3 (by decide)

end StampCombos
